import Mathlib

/-!
Verification of the RAG-C repository core against its specification.

Each section embeds one component of the source (a shallow embedding:
Python functions become Lean functions over explicit state) and proves the
specified properties about it.
-/

namespace RagC

/-!
## Generic stable insertion sort

Models Python's stable `sorted(...)`: elements are processed left to right
and each is inserted after every already-placed element that the comparison
keeps before it, so elements that compare equal keep their original order
(CPython's sort is stable; `reverse=True` keeps stability).
`keep y x = true` means `y` stays in front of `x`.
-/

def insertBy (keep : α → α → Bool) (x : α) : List α → List α
  | [] => [x]
  | y :: ys => if keep y x then y :: insertBy keep x ys else x :: y :: ys

def sortBy (keep : α → α → Bool) (l : List α) : List α :=
  l.foldl (fun acc x => insertBy keep x acc) []

/-!
## Hybrid retriever: reciprocal rank fusion

Embeds `HybridRetriever._reciprocal_rank_fusion` from
`src/uni_rag/retrieval_hybrid.py`.  The Python `scores` dict is modelled as
an association list in insertion order (updating an existing key keeps its
position, a new key is appended), matching CPython dict semantics.
-/

structure WeightedList where
  results : List String
  weight : ℚ
deriving DecidableEq

/-- Python dict write `scores[doc_id] = scores.get(doc_id, 0) + score`. -/
def updScores (scores : List (String × ℚ)) (docId : String) (s : ℚ) :
    List (String × ℚ) :=
  match scores with
  | [] => [(docId, s)]
  | (key, v) :: rest =>
    if key = docId then (key, v + s) :: rest
    else (key, v) :: updScores rest docId s

/-- The loop `for rank, result in enumerate(results)` of
`_reciprocal_rank_fusion`, adding `weight * (1.0 / (rank + k))` per item. -/
def addRanked (k w : ℚ) (rank : ℕ) (scores : List (String × ℚ)) :
    List String → List (String × ℚ)
  | [] => scores
  | d :: ds =>
    addRanked k w (rank + 1) (updScores scores d (w * (1 / ((rank : ℚ) + k)))) ds

def addListScores (k : ℚ) (scores : List (String × ℚ)) (wl : WeightedList) :
    List (String × ℚ) :=
  addRanked k wl.weight 0 scores wl.results

def rrfScores (resultLists : List WeightedList) (k : ℚ) : List (String × ℚ) :=
  resultLists.foldl (addListScores k) []

/-- Comparison used by `sorted(..., key=lambda x: x["score"], reverse=True)`. -/
def scoreDescKeep (a b : String × ℚ) : Bool :=
  decide (b.2 ≤ a.2)

def reciprocalRankFusion (resultLists : List WeightedList) (k : ℚ) :
    List (String × ℚ) :=
  sortBy scoreDescKeep (rrfScores resultLists k)

/-- Spec-side score contribution of one ranked list (spec §8: each result's
final score equals `Σ_i w_i · 1/(rank_i(r)+k)`, absent lists contributing
nothing; ranks are zero-based). -/
def specContrib (k : ℚ) (wl : WeightedList) (docId : String) : ℚ :=
  if docId ∈ wl.results then wl.weight * (1 / ((wl.results.indexOf docId : ℚ) + k))
  else 0

/-- Proof-side accumulator describing what `addRanked` adds for one id. -/
def rankedContrib (k w : ℚ) (rank : ℕ) : List String → String → ℚ
  | [], _ => 0
  | d :: ds, docId =>
    (if d = docId then w * (1 / ((rank : ℚ) + k)) else 0) +
      rankedContrib k w (rank + 1) ds docId

/-- Lookup with default 0, i.e. `scores.get(doc_id, 0)`. -/
def lookupOr0 (scores : List (String × ℚ)) (docId : String) : ℚ :=
  match scores with
  | [] => 0
  | (key, v) :: rest => if key = docId then v else lookupOr0 rest docId

/-- Keys of the score dict, for the no-duplicate-keys invariant. -/
def scoreKeys (scores : List (String × ℚ)) : List String :=
  scores.map Prod.fst

/-!
## Chunker

Embeds `Chunker.chunk_document` from `src/uni_rag/text_sink.py` at the level
of chunk texts.  Python string operations are modelled on the underlying
character lists: `content.split` on a blank line, the whitespace split of
`paragraph.split()` (dropping empty tokens), negative-index slicing of the
overlap words, and joining with a single space.
-/

/-- Whitespace characters recognised by Python `str.split()` (ASCII range). -/
def isPySpace (c : Char) : Bool :=
  c = ' ' || c = '\t' || c = '\n' || c = '\r' || c = '\x0b' || c = '\x0c'

/-- Split on the two-character blank-line separator, keeping empty pieces,
as Python `content.split` with that separator does (non-overlapping,
left to right). -/
def splitParas : List Char → List (List Char)
  | [] => [[]]
  | '\n' :: '\n' :: rest => [] :: splitParas rest
  | c :: rest =>
    match splitParas rest with
    | [] => [[c]]
    | p :: ps => (c :: p) :: ps

/-- Split at every whitespace character, keeping empty runs. -/
def splitWsRuns : List Char → List (List Char)
  | [] => [[]]
  | c :: rest =>
    if isPySpace c then [] :: splitWsRuns rest
    else
      match splitWsRuns rest with
      | [] => [[c]]
      | p :: ps => (c :: p) :: ps

/-- Python `s.split()` with no argument: tokens separated by whitespace
runs, with no empty tokens. -/
def pyWords (s : String) : List String :=
  ((splitWsRuns s.data).filter (fun p => p ≠ [])).map (fun p => String.mk p)

/-- Python `len(s.split())`, the token-count approximation of the chunker. -/
def pyTokens (s : String) : ℕ :=
  (pyWords s).length

/-- Python slice `lst[-n:]` (for `n = 0` Python returns the whole list). -/
def takeLastPy (n : ℕ) (l : List α) : List α :=
  if n = 0 then l else l.drop (l.length - n)

structure ChunkState where
  chunks : List String
  currentChunk : String
  currentTokens : ℕ
deriving DecidableEq

/-- One iteration of the paragraph loop in `Chunker.chunk_document`. -/
def chunkStep (chunkSize chunkOverlap : ℕ) (st : ChunkState)
    (paragraph : String) : ChunkState :=
  let paragraphTokens := pyTokens paragraph
  if st.currentTokens + paragraphTokens > chunkSize ∧ st.currentChunk ≠ "" then
    let overlapWords := takeLastPy chunkOverlap (pyWords st.currentChunk)
    { chunks := st.chunks ++ [st.currentChunk]
      currentChunk :=
        String.intercalate " " overlapWords ++ "\n\n" ++ paragraph
      currentTokens := overlapWords.length + paragraphTokens }
  else
    { chunks := st.chunks
      currentChunk :=
        if st.currentChunk ≠ "" then st.currentChunk ++ "\n\n" ++ paragraph
        else paragraph
      currentTokens := st.currentTokens + paragraphTokens }

/-- `Chunker.chunk_document`, returning the chunk texts in order. -/
def chunkDocument (chunkSize chunkOverlap : ℕ) (content : String) :
    List String :=
  let paragraphs := (splitParas content.data).map (fun p => String.mk p)
  let final := paragraphs.foldl (chunkStep chunkSize chunkOverlap) ⟨[], "", 0⟩
  if final.currentChunk ≠ "" then final.chunks ++ [final.currentChunk]
  else final.chunks

/-!
## Text sink: chunk manifest and delta indexing

Embeds `TextSink.process_document` from `src/uni_rag/text_sink.py` as a
transition on an explicit store state.  Chunking and embedding are covered
by the Chunker section; a processing run is parameterised by the chunk-id
list it produces (chunk ids are deterministic content hashes).  The vector
store and text index are external collaborators specified by the abstract
storage contract (spec §3/§4.6: upsert and delete keyed by `chunk_id`), and
manifest persistence is modelled from the spec because
`TextSink._get_manifest` / `_store_manifest` are placeholder stubs in the
source ("In a real implementation, this would fetch from a database").
-/

structure Manifest where
  docId : String
  chunkCount : ℕ
  chunkIds : List String
deriving DecidableEq

structure SinkState where
  vectorStore : List String
  textIndex : List String
  manifests : List (String × Manifest)
deriving DecidableEq

/-- Modelled from the spec: `chunk_id`-keyed delete of the storage
contract (`vector_store.delete` / `text_index.delete`). -/
def storeDelete (ids : List String) (store : List String) : List String :=
  store.filter (fun c => c ∉ ids)

/-- Modelled from the spec: idempotent `chunk_id`-keyed upsert of the
storage contract (`vector_store.upsert` / `text_index.upsert`). -/
def storeUpsert (ids : List String) (store : List String) : List String :=
  ids.foldl (fun st c => if c ∈ st then st else st ++ [c]) store

/-- Modelled from the spec: manifest lookup by `doc_id`
(`TextSink._get_manifest`, a stub in the source). -/
def getManifest (ms : List (String × Manifest)) (docId : String) :
    Option Manifest :=
  match ms with
  | [] => none
  | (key, m) :: rest => if key = docId then some m else getManifest rest docId

/-- Modelled from the spec: manifest write keyed by `doc_id`
(`TextSink._store_manifest`, a stub in the source). -/
def setManifest (ms : List (String × Manifest)) (docId : String)
    (m : Manifest) : List (String × Manifest) :=
  match ms with
  | [] => [(docId, m)]
  | (key, m') :: rest =>
    if key = docId then (key, m) :: rest
    else (key, m') :: setManifest rest docId m

/-- `TextSink._delete_chunks`: delete from vector store and text index. -/
def deleteChunks (st : SinkState) (ids : List String) : SinkState :=
  { st with
    vectorStore := storeDelete ids st.vectorStore
    textIndex := storeDelete ids st.textIndex }

/-- `TextSink._index_chunks`: upsert into vector store and text index. -/
def indexChunks (st : SinkState) (ids : List String) : SinkState :=
  { st with
    vectorStore := storeUpsert ids st.vectorStore
    textIndex := storeUpsert ids st.textIndex }

structure ProcessResult where
  state : SinkState
  deleted : List String
deriving DecidableEq

/-- `TextSink.process_document` as a state transition: look up the
manifest, compute the delta, delete stale chunks, store the updated
manifest, then index the new chunks.  `newChunkIds` is the chunk-id list
produced by chunking and embedding the document. -/
def processDocument (st : SinkState) (docId : String)
    (newChunkIds : List String) : ProcessResult :=
  match getManifest st.manifests docId with
  | some m =>
    let toDelete := (m.chunkIds.filter (fun c => c ∉ newChunkIds)).dedup
    let st1 := deleteChunks st toDelete
    let manifest :=
      { m with chunkCount := newChunkIds.length, chunkIds := newChunkIds }
    let st2 := { st1 with manifests := setManifest st1.manifests docId manifest }
    ⟨indexChunks st2 newChunkIds, toDelete⟩
  | none =>
    let manifest : Manifest := ⟨docId, newChunkIds.length, newChunkIds⟩
    let st2 := { st with manifests := setManifest st.manifests docId manifest }
    ⟨indexChunks st2 newChunkIds, []⟩

/-!
## Graph sink: temporal edge conflict resolution

Embeds `GraphSink._handle_edge_conflicts` from `src/uni_rag/graph_sink.py`
for a single `(source, type, target)` relation.  Timestamps are modelled as
integers (the source compares ISO-8601 strings, which is order-isomorphic).
The store is the relation's edge list; `create_edge` / `update_edge` of the
external graph client follow the spec's `edge_id`-keyed upsert contract
(spec §3), snapshotting properties at call time.  The Python locals
`new_start` / `new_end` are read once before the loop, while the
`new_properties` dict mutates across iterations; the embedding threads the
mutated properties through the fold and keeps the loop-invariant bounds as
parameters, exactly as the source does.
-/

structure EdgeProps where
  confidence : ℚ
  tStart : Int
  tEnd : Int
  tsExtracted : Option Int
deriving DecidableEq

structure StoredEdge where
  id : String
  props : EdgeProps
deriving DecidableEq

/-- Modelled from the spec: `graph_client.update_edge`, replacing the
properties of the edge with the given id. -/
def updateEdge (store : List StoredEdge) (edgeId : String)
    (props : EdgeProps) : List StoredEdge :=
  store.map (fun e => if e.id = edgeId then ⟨edgeId, props⟩ else e)

/-- Modelled from the spec: `graph_client.create_edge` with `edge_id`-keyed
upsert semantics. -/
def createEdge (store : List StoredEdge) (edgeId : String)
    (props : EdgeProps) : List StoredEdge :=
  if store.any (fun e => e.id = edgeId) then
    store.map (fun e => if e.id = edgeId then ⟨edgeId, props⟩ else e)
  else store ++ [⟨edgeId, props⟩]

/-- The overlap test of `_handle_edge_conflicts`:
`new_start <= edge_end and new_end >= edge_start`. -/
def overlapB (newStart newEnd : Int) (e : StoredEdge) : Bool :=
  decide (newStart ≤ e.props.tEnd ∧ newEnd ≥ e.props.tStart)

/-- The equal-confidence recency test of `_handle_edge_conflicts`:
`if not old_ts or new_ts > old_ts` (a missing extraction timestamp always
loses to a present one). -/
def tsWins (oldTs newTs : Option Int) : Bool :=
  match oldTs, newTs with
  | none, _ => true
  | some o, some n => decide (n > o)
  | some _, none => false

/-- One iteration of the loop over sorted existing edges.  The accumulator
carries the store and the current (possibly mutated) new-edge properties;
`newStart` / `newEnd` are the loop-invariant Python locals. -/
def handleStep (newEdgeId : String) (newStart newEnd : Int)
    (acc : List StoredEdge × EdgeProps) (edge : StoredEdge) :
    List StoredEdge × EdgeProps :=
  let store := acc.1
  let newProps := acc.2
  let ep := edge.props
  if overlapB newStart newEnd edge then
    if newProps.confidence > ep.confidence then
      let store1 := updateEdge store edge.id { ep with tEnd := newStart }
      (createEdge store1 newEdgeId newProps, newProps)
    else if newProps.confidence < ep.confidence then
      if newStart < ep.tStart then
        let newProps1 := { newProps with tEnd := ep.tStart }
        (createEdge store newEdgeId newProps1, newProps1)
      else if newEnd > ep.tEnd then
        let newProps1 := { newProps with tStart := ep.tEnd }
        (createEdge store (newEdgeId ++ ":after") newProps1, newProps1)
      else (store, newProps)
    else
      if tsWins ep.tsExtracted newProps.tsExtracted then
        let store1 := updateEdge store edge.id { ep with tEnd := newStart }
        (createEdge store1 newEdgeId newProps, newProps)
      else (store, newProps)
  else (store, newProps)

/-- Ascending `t_valid_start` comparison for
`sorted(existing_edges, key=lambda e: e["properties"]["t_valid_start"])`. -/
def edgeKeep (a b : StoredEdge) : Bool :=
  decide (a.props.tStart ≤ b.props.tStart)

/-- `GraphSink._handle_edge_conflicts` on the edges of one relation: fold
the per-edge loop over the start-sorted snapshot of the existing edges,
starting from the current store and the fresh new-edge properties. -/
def handleEdgeConflicts (existing : List StoredEdge) (newProps : EdgeProps)
    (newEdgeId : String) : List StoredEdge :=
  ((sortBy edgeKeep existing).foldl
    (handleStep newEdgeId newProps.tStart newProps.tEnd)
    (existing, newProps)).1

/-- Validity of an edge at an instant: `t_valid_start <= t < t_valid_end`. -/
def validAt (e : StoredEdge) (t : Int) : Prop :=
  e.props.tStart ≤ t ∧ t < e.props.tEnd

instance (e : StoredEdge) (t : Int) : Decidable (validAt e t) := by
  unfold validAt
  infer_instance

/-- Number of stored edges valid at an instant. -/
def countValid (store : List StoredEdge) (t : Int) : ℕ :=
  (store.filter (fun e => decide (validAt e t))).length

/-- Disjointness of two validity windows. -/
def disjointWindows (a b : StoredEdge) : Prop :=
  ∀ t : Int, ¬(validAt a t ∧ validAt b t)

/-- The non-overlap invariant (spec §3): at most one edge of the relation
is valid at any instant. -/
def pairwiseNonOverlap (store : List StoredEdge) : Prop :=
  store.Pairwise disjointWindows

/-!
## JSON values and canonical serialization

Model of the JSON payloads flowing through the ingestion worker and of
Python's `json.dumps(obj, sort_keys=True)` (default separators, numbers
restricted to integers, minimal string escaping).  Used by
`MCPIngestionWorker._normalize_to_document` and `_compute_checksum`.
-/

inductive Json where
  | null
  | bool (b : Bool)
  | num (n : Int)
  | str (s : String)
  | arr (items : List Json)
  | obj (fields : List (String × Json))

/-- Minimal JSON string escaping (backslash and double quote). -/
def jsonEscape (s : String) : String :=
  String.mk (s.data.foldr
    (fun c acc =>
      if c = '"' then '\\' :: '"' :: acc
      else if c = '\\' then '\\' :: '\\' :: acc
      else c :: acc) [])

mutual

/-- Python `json.dumps(v, sort_keys=True)`: object keys are sorted at
every level; default separators. -/
def dumps : Json → String
  | .null => "null"
  | .bool true => "true"
  | .bool false => "false"
  | .num n => toString n
  | .str s => "\"" ++ jsonEscape s ++ "\""
  | .arr items => "[" ++ String.intercalate ", " (dumpsList items) ++ "]"
  | .obj fields =>
    "\x7b" ++
      String.intercalate ", "
        ((sortBy (fun a b => decide (a.1 ≤ b.1)) (dumpsFields fields)).map
          (fun kv => "\"" ++ jsonEscape kv.1 ++ "\": " ++ kv.2)) ++
      "\x7d"

def dumpsList : List Json → List String
  | [] => []
  | j :: js => dumps j :: dumpsList js

def dumpsFields : List (String × Json) → List (String × String)
  | [] => []
  | (k, v) :: fs => (k, dumps v) :: dumpsFields fs

end

/-- Python truthiness of a JSON value (`if not x`). -/
def jsonTruthy : Json → Bool
  | .null => false
  | .bool b => b
  | .num n => decide (n ≠ 0)
  | .str s => decide (s ≠ "")
  | .arr items => !items.isEmpty
  | .obj fields => !fields.isEmpty

/-- `item.get(key)`: first binding of the key, if any. -/
def lookupField (fields : List (String × Json)) (key : String) : Option Json :=
  match fields with
  | [] => none
  | (k, v) :: rest => if k = key then some v else lookupField rest key

/-- Python `str(v)` as used inside f-strings (container rendering
approximated by the JSON serialization). -/
def pyStr : Json → String
  | .str s => s
  | .num n => toString n
  | .bool true => "True"
  | .bool false => "False"
  | .null => "None"
  | .arr items => dumps (.arr items)
  | .obj fields => dumps (.obj fields)

/-- Python `item.get(a) or item.get(b)`: the first value if present and
truthy, else the second lookup unchanged. -/
def pyGetOr (item : List (String × Json)) (k1 k2 : String) : Option Json :=
  match lookupField item k1 with
  | some v => if jsonTruthy v then some v else lookupField item k2
  | none => lookupField item k2

/-!
## Ingestion worker: normalization, checksum, retry/backoff, DLQ

Embeds `MCPIngestionWorker._normalize_to_document`, `_compute_checksum`,
`_send_to_dlq` and the retry loop of `run_ingestion` from
`src/uni_rag/ingestion_stream.py`.  `hashlib.md5` is an external library
call and is passed as an opaque function; `datetime.now()` as a fixed
string; `random.uniform(-j, j)` as a stream of samples, one per retry.
-/

structure NormalizedDocument where
  id : String
  tenantId : String
  sourceTool : String
  sourceId : Json
  content : Json
  metadata : Json
  acl : Json
  tsSource : Json
  tsIngested : String
  schemaVersion : String

/-- `MCPIngestionWorker._normalize_to_document`. -/
def normalizeToDocument (md5 : String → String) (now : String)
    (item : List (String × Json)) (toolId tenantId : String) :
    NormalizedDocument :=
  let sourceId : Json :=
    match pyGetOr item "id" "source_id" with
    | some v =>
      if jsonTruthy v then v else .str (md5 (dumps (.obj item)))
    | none => .str (md5 (dumps (.obj item)))
  let content : Json :=
    match pyGetOr item "content" "text" with
    | some v => if jsonTruthy v then v else .str ""
    | none => .str ""
  let metadata : Json :=
    match lookupField item "metadata" with
    | some v => if jsonTruthy v then v else .obj []
    | none => .obj []
  let acl : Json :=
    match lookupField item "acl" with
    | some v => if jsonTruthy v then v else .arr []
    | none => .arr []
  let tsSource : Json :=
    match pyGetOr item "timestamp" "created_at" with
    | some v => if jsonTruthy v then v else .str now
    | none => .str now
  { id := tenantId ++ ":" ++ toolId ++ ":" ++ pyStr sourceId
    tenantId := tenantId
    sourceTool := toolId
    sourceId := sourceId
    content := content
    metadata := metadata
    acl := acl
    tsSource := tsSource
    tsIngested := now
    schemaVersion := "1.0" }

/-- `MCPIngestionWorker._compute_checksum`. -/
def computeChecksum (md5 : String → String) (d : NormalizedDocument) :
    String :=
  md5 (dumps (.obj [("source_id", d.sourceId), ("content", d.content),
    ("metadata", d.metadata), ("ts_source", d.tsSource)]))

/-- The error taxonomy surfaced by tool invocation (spec §7).  All of
these are plain Python exceptions; `run_ingestion` catches `Exception`. -/
inductive McpError where
  | permissionDenied (msg : String)
  | schemaInvalid (msg : String)
  | timeout (msg : String)
  | transportClosed (msg : String)
  | rpcError (retryable : Bool) (msg : String)
  | other (msg : String)
deriving DecidableEq

/-- Python `str(e)` on a tool-invocation error. -/
def errStr : McpError → String
  | .permissionDenied m => m
  | .schemaInvalid m => m
  | .timeout m => m
  | .transportClosed m => m
  | .rpcError _ m => m
  | .other m => m

/-- A successful tool response: `items` plus an optional `cursor`. -/
structure ToolResponse where
  items : List (List (String × Json))
  cursor : Option Json

/-- A record produced on topic `ingestion_dlq` by
`MCPIngestionWorker._send_to_dlq`. -/
structure DlqRecord where
  toolId : String
  tenantId : String
  params : List (String × Json)
  error : String
  timestamp : String
  retryCount : ℕ

structure IngestionConfig where
  maxRetries : ℕ
  retryDelay : ℚ
  retryBackoff : ℚ
  retryJitter : ℚ

/-- Observable outcome of one `run_ingestion` call: the returned value or
re-raised error, the sleeps performed, the records produced on the two
topics, the stored cursor, and how many times the tool was invoked. -/
structure RunResult where
  outcome : Except McpError (ℕ × Option Json)
  delays : List ℚ
  dlq : List DlqRecord
  produced : List (String × NormalizedDocument × String)
  checkpointCursor : Option Json
  invocations : ℕ

/-- The `while retry_count <= self.max_retries` loop of
`MCPIngestionWorker.run_ingestion`.  `fuel` equals
`max_retries + 1 - retry_count`, so running out of fuel is exactly the
loop exit, after which the last error is re-raised.  `attempts n` is the
result of the `n`-th tool invocation and `uniform n` the `n`-th
`random.uniform(-retry_jitter, retry_jitter)` sample. -/
def runLoop (md5 : String → String) (now : String)
    (attempts : ℕ → Except McpError ToolResponse) (uniform : ℕ → ℚ)
    (cfg : IngestionConfig) (toolId tenantId : String)
    (params : List (String × Json)) :
    ℕ → ℕ → Option McpError → List ℚ → List DlqRecord → RunResult
  | 0, retryCount, lastError, delays, dlq =>
    { outcome := .error (lastError.getD
        (.other ("Ingestion failed for " ++ toolId)))
      delays := delays
      dlq := dlq
      produced := []
      checkpointCursor := none
      invocations := retryCount }
  | fuel + 1, retryCount, _, delays, dlq =>
    match attempts retryCount with
    | .ok resp =>
      let docs := resp.items.map (fun item =>
        let d := normalizeToDocument md5 now item toolId tenantId
        (tenantId ++ ":" ++ pyStr d.sourceId, d, computeChecksum md5 d))
      { outcome := .ok (docs.length, resp.cursor)
        delays := delays
        dlq := dlq
        produced := docs
        checkpointCursor := resp.cursor
        invocations := retryCount + 1 }
    | .error e =>
      let rc := retryCount + 1
      if rc ≤ cfg.maxRetries then
        let base := cfg.retryDelay * cfg.retryBackoff ^ (rc - 1)
        let jitter := uniform (rc - 1) * base
        let delay := max 0 (base + jitter)
        runLoop md5 now attempts uniform cfg toolId tenantId params
          fuel rc (some e) (delays ++ [delay]) dlq
      else
        runLoop md5 now attempts uniform cfg toolId tenantId params
          fuel rc (some e) delays
          (dlq ++ [⟨toolId, tenantId, params, errStr e, now, cfg.maxRetries⟩])

/-- `MCPIngestionWorker.run_ingestion` (retry counter starts at 0; the
loop runs while `retry_count <= max_retries`). -/
def runIngestion (md5 : String → String) (now : String)
    (attempts : ℕ → Except McpError ToolResponse) (uniform : ℕ → ℚ)
    (cfg : IngestionConfig) (toolId tenantId : String)
    (params : List (String × Json)) : RunResult :=
  runLoop md5 now attempts uniform cfg toolId tenantId params
    (cfg.maxRetries + 1) 0 none [] []

/-!
## Grounded generator: citation extraction

Embeds `GroundedGenerator._extract_citations` from
`src/uni_rag/grounding.py`.  The regex `findall` of bracketed digit runs is
implemented as a character scan; the Python `set(...)` of the parsed
markers is modelled as the ascending deduplicated list, which is CPython's
iteration order for a small set of small non-negative ints (hash slots in
value order).
-/

structure ContextItem where
  itemType : Option String
  chunkId : String
  docId : String
  sourceTool : String
  tsSource : String
  edgeId : String
  relation : String
  tStart : String
  tEnd : String
deriving DecidableEq

/-- A citation record; `refType` is `"chunk"` or `"edge"`, unused fields
are the `item.get(..., "")` default. -/
structure Citation where
  refType : String
  refId : String
  docId : String
  sourceTool : String
  timestamp : String
  relation : String
  vStart : String
  vEnd : String
deriving DecidableEq

/-- The per-marker citation object built from `context[marker - 1]`. -/
def mkCitation (item : ContextItem) : Citation :=
  if item.itemType = some "edge" then
    ⟨"edge", item.edgeId, "", item.sourceTool, "", item.relation,
      item.tStart, item.tEnd⟩
  else
    ⟨"chunk", item.chunkId, item.docId, item.sourceTool, item.tsSource,
      "", "", ""⟩

/-- Scanner state for the regex `findall` of bracketed digit runs:
outside a candidate, just after the opening bracket, or inside a digit
run with its value so far. -/
inductive ScanState where
  | outside
  | started
  | digits (n : ℕ)

/-- Left-to-right scan for non-overlapping matches of a bracketed digit
run, the `re.findall` of the citation pattern in the source. -/
def findMarkersAux : List Char → ScanState → List ℕ
  | [], _ => []
  | c :: rest, st =>
    if c = '[' then findMarkersAux rest .started
    else if c.isDigit then
      match st with
      | .started => findMarkersAux rest (.digits (c.toNat - '0'.toNat))
      | .digits n =>
        findMarkersAux rest (.digits (n * 10 + (c.toNat - '0'.toNat)))
      | .outside => findMarkersAux rest .outside
    else if c = ']' then
      match st with
      | .digits n => n :: findMarkersAux rest .outside
      | _ => findMarkersAux rest .outside
    else findMarkersAux rest .outside

def findMarkers (s : String) : List ℕ :=
  findMarkersAux s.data .outside

/-- `set(int(m) for m in ...)` iterated: deduplicated ascending markers
(CPython small-int set iteration order). -/
def markerSet (l : List ℕ) : List ℕ :=
  sortBy (fun a b => decide (a ≤ b)) l.dedup

instance : Inhabited ContextItem :=
  ⟨⟨none, "", "", "", "", "", "", "", ""⟩⟩

/-- `GroundedGenerator._extract_citations`: one citation per unique
in-range marker found in the response, referencing `context[marker-1]`. -/
def extractCitations (response : String) (context : List ContextItem) :
    List Citation :=
  ((markerSet (findMarkers response)).filter
    (fun m => 1 ≤ m ∧ m ≤ context.length)).map
    (fun m => mkCitation (context.getD (m - 1) default))

/-!
## MCP host: permissioned tool invocation

Embeds `MCPHost._check_permissions` and `MCPHost.invoke_tool` from
`src/uni_rag/mcp/host.py`.  The transport is an opaque function; the
source's `_validate_params` returns `True` unconditionally; distinct
`ValueError` messages are modelled as distinct error constructors, and a
transport exception re-raised by `invoke_tool` is wrapped in `transport`.
-/

def lookupStr (assoc : List (String × α)) (key : String) : Option α :=
  match assoc with
  | [] => none
  | (k, v) :: rest => if k = key then some v else lookupStr rest key

structure UserConfig where
  allowedTools : List String
deriving DecidableEq

structure TenantConfig where
  allowedTools : List String
  users : List (String × UserConfig)
deriving DecidableEq

structure HostConfig where
  tenants : List (String × TenantConfig)
deriving DecidableEq

structure ToolInfo where
  serverId : String
deriving DecidableEq

inductive HostError where
  | toolNotFound (toolId : String)
  | tenantNotAllowed (toolId tenantId : String)
  | userNotAllowed (toolId userId : String)
  | transport (e : McpError)
deriving DecidableEq

/-- Whether an invocation outcome is a permission failure. -/
def isPermissionError : Except HostError Json → Bool
  | .error (.tenantNotAllowed _ _) => true
  | .error (.userNotAllowed _ _) => true
  | _ => false

/-- `MCPHost._check_permissions`: the tenant allow-list must be non-empty
and contain the tool; a truthy `user_id` with a non-empty user allow-list
narrows further. -/
def checkPermissions (config : HostConfig) (toolId tenantId : String)
    (userId : Option String) : Except HostError Unit :=
  let tenantTools :=
    ((lookupStr config.tenants tenantId).map TenantConfig.allowedTools).getD []
  if tenantTools = [] ∨ toolId ∉ tenantTools then
    .error (.tenantNotAllowed toolId tenantId)
  else
    match userId with
    | some uid =>
      if uid ≠ "" then
        let userTools :=
          ((lookupStr (((lookupStr config.tenants tenantId).map
            TenantConfig.users).getD []) uid).map
              UserConfig.allowedTools).getD []
        if userTools ≠ [] ∧ toolId ∉ userTools then
          .error (.userNotAllowed toolId uid)
        else .ok ()
      else .ok ()
    | none => .ok ()

/-- Python `tool_id.split` on the first dot, keeping the remainder. -/
def toolNameOf (toolId : String) : String :=
  match toolId.splitOn "." with
  | [] => ""
  | _ :: rest => String.intercalate "." rest

/-- `MCPHost.invoke_tool`: look up the tool, validate (a no-op in the
source), check permissions only when a truthy `tenant_id` is supplied,
then invoke the transport. -/
def invokeTool (tools : List (String × ToolInfo)) (config : HostConfig)
    (serverInvoke : String → String → List (String × Json) →
      Except McpError Json)
    (toolId : String) (params : List (String × Json))
    (tenantId userId : Option String) : Except HostError Json :=
  match lookupStr tools toolId with
  | none => .error (.toolNotFound toolId)
  | some tool =>
    let permCheck : Except HostError Unit :=
      match tenantId with
      | some t =>
        if t ≠ "" then checkPermissions config toolId t userId else .ok ()
      | none => .ok ()
    match permCheck with
    | .error err => .error err
    | .ok _ =>
      (serverInvoke tool.serverId (toolNameOf toolId) params).mapError
        HostError.transport

theorem lookupOr0_updScores (scores : List (String × ℚ)) (docId docId' : String)
    (s : ℚ) :
    lookupOr0 (updScores scores docId s) docId' =
      lookupOr0 scores docId' + (if docId' = docId then s else 0) := by
  induction scores with
  | nil =>
    by_cases h : docId = docId'
    · subst h; simp [updScores, lookupOr0]
    · simp [updScores, lookupOr0, h, Ne.symm h]
  | cons p rest ih =>
    obtain ⟨key, v⟩ := p
    by_cases hk : key = docId
    · subst hk
      by_cases h' : key = docId'
      · subst h'; simp [updScores, lookupOr0]
      · simp [updScores, lookupOr0, h', Ne.symm h']
    · by_cases h' : key = docId'
      · subst h'
        simp [updScores, lookupOr0, hk, Ne.symm hk]
      · simp [updScores, lookupOr0, hk, h', ih]

theorem lookupOr0_addRanked (k w : ℚ) (ds : List String) (rank : ℕ)
    (scores : List (String × ℚ)) (docId : String) :
    lookupOr0 (addRanked k w rank scores ds) docId =
      lookupOr0 scores docId + rankedContrib k w rank ds docId := by
  induction ds generalizing rank scores with
  | nil => simp [addRanked, rankedContrib]
  | cons d ds ih =>
    simp only [addRanked, rankedContrib, ih, lookupOr0_updScores]
    have hif : (if docId = d then w * (1 / ((rank : ℚ) + k)) else 0)
        = (if d = docId then w * (1 / ((rank : ℚ) + k)) else 0) := by
      by_cases h : docId = d
      · simp [h]
      · simp [h, Ne.symm h]
    rw [hif]
    ring

theorem lookupOr0_foldLists (k : ℚ) (lists : List WeightedList)
    (scores : List (String × ℚ)) (docId : String) :
    lookupOr0 (lists.foldl (addListScores k) scores) docId =
      lookupOr0 scores docId +
        (lists.map (fun wl => rankedContrib k wl.weight 0 wl.results docId)).sum := by
  induction lists generalizing scores with
  | nil => simp
  | cons wl ls ih =>
    simp only [List.foldl_cons, List.map_cons, List.sum_cons, ih,
      addListScores, lookupOr0_addRanked]
    ring

theorem rankedContrib_eq_indexOf (k w : ℚ) (docId : String) :
    ∀ (ds : List String) (rank : ℕ), ds.Nodup →
      rankedContrib k w rank ds docId =
        (if docId ∈ ds then
          w * (1 / (((rank : ℚ) + (ds.indexOf docId : ℚ)) + k)) else 0) := by
  intro ds
  induction ds with
  | nil => intro rank _; simp [rankedContrib]
  | cons d ds ih =>
    intro rank h
    rcases List.nodup_cons.mp h with ⟨hd, hds⟩
    by_cases hdoc : d = docId
    · have hnot : docId ∉ ds := hdoc ▸ hd
      have hzero : rankedContrib k w (rank + 1) ds docId = 0 := by
        rw [ih (rank + 1) hds, if_neg hnot]
      have hidx : (d :: ds).indexOf docId = 0 := by
        rw [hdoc]; exact List.indexOf_cons_self docId ds
      simp only [rankedContrib, if_pos hdoc, hzero, add_zero, hidx]
      rw [if_pos (by simp [hdoc])]
      norm_num
    · have hidx : docId ∈ ds → (d :: ds).indexOf docId = ds.indexOf docId + 1 :=
        fun _ => List.indexOf_cons_ne ds hdoc
      simp only [rankedContrib, if_neg hdoc, zero_add, ih (rank + 1) hds]
      by_cases hmem : docId ∈ ds
      · rw [if_pos hmem, if_pos (List.mem_cons.mpr (Or.inr hmem)), hidx hmem]
        push_cast
        ring_nf
      · have hnotin : docId ∉ d :: ds := by
          intro hcon
          rcases List.mem_cons.mp hcon with h' | h'
          · exact hdoc h'.symm
          · exact hmem h'
        rw [if_neg hmem, if_neg hnotin]

theorem rankedContrib_eq_specContrib (k : ℚ) (wl : WeightedList) (docId : String)
    (h : wl.results.Nodup) :
    rankedContrib k wl.weight 0 wl.results docId = specContrib k wl docId := by
  rw [rankedContrib_eq_indexOf k wl.weight docId wl.results 0 h, specContrib]
  by_cases hmem : docId ∈ wl.results
  · rw [if_pos hmem, if_pos hmem]; norm_num
  · rw [if_neg hmem, if_neg hmem]

theorem scoreKeys_updScores (scores : List (String × ℚ)) (docId : String) (s : ℚ) :
    scoreKeys (updScores scores docId s) =
      if docId ∈ scoreKeys scores then scoreKeys scores
      else scoreKeys scores ++ [docId] := by
  induction scores with
  | nil => simp [updScores, scoreKeys]
  | cons p rest ih =>
    obtain ⟨key, v⟩ := p
    by_cases hk : key = docId
    · subst hk
      simp [updScores, scoreKeys]
    · have : docId ≠ key := fun h => hk h.symm
      simp only [updScores, hk, if_false, scoreKeys, List.map_cons] at ih ⊢
      rw [ih]
      by_cases hmem : docId ∈ rest.map Prod.fst <;> simp [hmem, this]

theorem nodup_scoreKeys_updScores (scores : List (String × ℚ)) (docId : String)
    (s : ℚ) (h : (scoreKeys scores).Nodup) :
    (scoreKeys (updScores scores docId s)).Nodup := by
  rw [scoreKeys_updScores]
  by_cases hmem : docId ∈ scoreKeys scores
  · simpa [hmem] using h
  · rw [if_neg hmem]
    refine List.nodup_append.mpr ⟨h, List.nodup_singleton _, ?_⟩
    intro x hx hx2
    simp only [List.mem_singleton] at hx2
    exact hmem (hx2 ▸ hx)

theorem nodup_scoreKeys_addRanked (k w : ℚ) (ds : List String) (rank : ℕ)
    (scores : List (String × ℚ)) (h : (scoreKeys scores).Nodup) :
    (scoreKeys (addRanked k w rank scores ds)).Nodup := by
  induction ds generalizing rank scores with
  | nil => simpa [addRanked]
  | cons d ds ih => exact ih _ _ (nodup_scoreKeys_updScores _ _ _ h)

theorem nodup_scoreKeys_rrfScores (lists : List WeightedList) (k : ℚ) :
    (scoreKeys (rrfScores lists k)).Nodup := by
  suffices h : ∀ scores, (scoreKeys scores).Nodup →
      (scoreKeys (lists.foldl (addListScores k) scores)).Nodup by
    exact h [] (by simp [scoreKeys])
  induction lists with
  | nil => exact fun _ h => h
  | cons wl ls ih =>
    exact fun scores h => ih _ (nodup_scoreKeys_addRanked _ _ _ _ _ h)

theorem lookupOr0_of_mem (scores : List (String × ℚ)) (docId : String) (s : ℚ)
    (hnd : (scoreKeys scores).Nodup) (hm : (docId, s) ∈ scores) :
    lookupOr0 scores docId = s := by
  induction scores with
  | nil => simp at hm
  | cons p rest ih =>
    obtain ⟨key, v⟩ := p
    simp only [scoreKeys, List.map_cons, List.nodup_cons] at hnd
    rcases List.mem_cons.mp hm with h | h
    · injection h with h1 h2
      subst h1
      subst h2
      simp [lookupOr0]
    · have hkey : key ≠ docId := by
        intro hk
        apply hnd.1
        rw [hk]
        simpa using List.mem_map_of_mem Prod.fst h
      simp [lookupOr0, hkey, ih hnd.2 h]

theorem perm_insertBy (keep : α → α → Bool) (x : α) (l : List α) :
    (insertBy keep x l).Perm (x :: l) := by
  induction l with
  | nil => simp [insertBy]
  | cons y ys ih =>
    by_cases h : keep y x
    · simpa [insertBy, h] using ((ih.cons y).trans (List.Perm.swap x y ys))
    · simp [insertBy, h]

theorem perm_sortBy (keep : α → α → Bool) (l : List α) :
    (sortBy keep l).Perm l := by
  suffices h : ∀ acc : List α,
      (l.foldl (fun acc x => insertBy keep x acc) acc).Perm (acc ++ l) by
    simpa using h []
  induction l with
  | nil => simp
  | cons x xs ih =>
    intro acc
    refine (ih (insertBy keep x acc)).trans ?_
    refine (((perm_insertBy keep x acc).append_right xs).trans ?_)
    exact List.perm_middle.symm

theorem pairwise_insertBy (keep : α → α → Bool)
    (htot : ∀ a b, keep a b = true ∨ keep b a = true)
    (htrans : ∀ a b c, keep a b = true → keep b c = true → keep a c = true)
    (x : α) (l : List α) (h : l.Pairwise (fun a b => keep a b = true)) :
    (insertBy keep x l).Pairwise (fun a b => keep a b = true) := by
  induction l with
  | nil => simp [insertBy]
  | cons y ys ih =>
    rcases List.pairwise_cons.mp h with ⟨hy, hys⟩
    by_cases hk : keep y x = true
    · have hstep : insertBy keep x (y :: ys) = y :: insertBy keep x ys := by
        simp [insertBy, hk]
      rw [hstep]
      refine List.pairwise_cons.mpr ⟨?_, ih hys⟩
      intro z hz
      have hz' : z ∈ x :: ys := (perm_insertBy keep x ys).mem_iff.mp hz
      rcases List.mem_cons.mp hz' with hz' | hz'
      · rw [hz']; exact hk
      · exact hy z hz'
    · have hxy : keep x y = true := (htot x y).resolve_right hk
      have hstep : insertBy keep x (y :: ys) = x :: y :: ys := by
        simp [insertBy, hk]
      rw [hstep]
      refine List.pairwise_cons.mpr ⟨?_, h⟩
      intro z hz
      rcases List.mem_cons.mp hz with hz | hz
      · rw [hz]; exact hxy
      · exact htrans x y z hxy (hy z hz)

theorem pairwise_sortBy (keep : α → α → Bool)
    (htot : ∀ a b, keep a b = true ∨ keep b a = true)
    (htrans : ∀ a b c, keep a b = true → keep b c = true → keep a c = true)
    (l : List α) : (sortBy keep l).Pairwise (fun a b => keep a b = true) := by
  suffices h : ∀ acc : List α, acc.Pairwise (fun a b => keep a b = true) →
      (l.foldl (fun acc x => insertBy keep x acc) acc).Pairwise
        (fun a b => keep a b = true) by
    exact h [] (by simp)
  induction l with
  | nil => exact fun _ h => h
  | cons x xs ih =>
    exact fun acc hacc => ih _ (pairwise_insertBy keep htot htrans x acc hacc)

/-- C1. For every fused retrieval, each result's final score is the weighted
reciprocal-rank sum `Σ_i w_i · 1/(rank_i(r)+k)` over the lists containing it
(zero-based ranks, absent lists contributing nothing), the output is sorted
by descending score, and on lists `A=[d1,d2,d3]`, `B=[d2,d3,d1]` with weights
1.0 and `k=60` the fused order is `d2, d1, d3` (so `d2` first and `d1` before
`d3`). -/
theorem rrf_score_formula_and_order (lists : List WeightedList) (k : ℚ)
    (hnd : ∀ wl ∈ lists, wl.results.Nodup) :
    (∀ p ∈ reciprocalRankFusion lists k,
        p.2 = (lists.map (fun wl => specContrib k wl p.1)).sum) ∧
      (reciprocalRankFusion lists k).Pairwise (fun a b => b.2 ≤ a.2) ∧
      (reciprocalRankFusion
          [⟨["d1", "d2", "d3"], 1⟩, ⟨["d2", "d3", "d1"], 1⟩] 60).map Prod.fst =
        ["d2", "d1", "d3"] := by
  have hconcrete :
      (reciprocalRankFusion
          [⟨["d1", "d2", "d3"], 1⟩, ⟨["d2", "d3", "d1"], 1⟩] 60).map Prod.fst =
        ["d2", "d1", "d3"] := by
    simp only [reciprocalRankFusion, rrfScores, addListScores, addRanked,
      updScores, sortBy, insertBy, scoreDescKeep, List.foldl]
    norm_num
    repeat
      first
      | (simp only [insertBy, scoreDescKeep, List.foldl]; norm_num)
      | rfl
  refine ⟨?_, ?_, hconcrete⟩
  · intro p hp
    have hmem : p ∈ rrfScores lists k :=
      (perm_sortBy scoreDescKeep (rrfScores lists k)).mem_iff.mp hp
    have hval : lookupOr0 (rrfScores lists k) p.1 = p.2 :=
      lookupOr0_of_mem _ p.1 p.2 (nodup_scoreKeys_rrfScores lists k)
        (by simpa using hmem)
    have h0 := lookupOr0_foldLists k lists [] p.1
    simp only [rrfScores] at hval
    rw [h0] at hval
    simp only [lookupOr0, zero_add] at hval
    rw [← hval]
    congr 1
    exact List.map_congr_left fun wl hwl =>
      rankedContrib_eq_specContrib k wl p.1 (hnd wl hwl)
  · have h := pairwise_sortBy scoreDescKeep
      (fun a b => by
        simp only [scoreDescKeep, decide_eq_true_eq]
        exact le_total b.2 a.2)
      (fun a b c hab hbc => by
        simp only [scoreDescKeep, decide_eq_true_eq] at *
        exact le_trans hbc hab)
      (rrfScores lists k)
    exact h.imp (by simp [scoreDescKeep])

/-- Witness for C1 at the concrete example lists. -/
theorem rrf_score_formula_and_order_witness :
    (∀ wl ∈ [WeightedList.mk ["d1", "d2", "d3"] 1,
        WeightedList.mk ["d2", "d3", "d1"] 1], wl.results.Nodup) ∧
      (reciprocalRankFusion
          [⟨["d1", "d2", "d3"], 1⟩, ⟨["d2", "d3", "d1"], 1⟩] 60).map Prod.fst =
        ["d2", "d1", "d3"] :=
  ⟨by decide,
    (rrf_score_formula_and_order
      [⟨["d1", "d2", "d3"], 1⟩, ⟨["d2", "d3", "d1"], 1⟩] 60 (by decide)).2.2⟩

/-- C8. When the next paragraph would exceed the cap and the buffer is
non-empty, a chunk is emitted and the next buffer is the last
`chunk_overlap` tokens of the emitted chunk followed by the new paragraph;
on `"AAA BBB CCC\n\nDDD EEE FFF"` with `chunk_size=4`, `chunk_overlap=1`
exactly the two chunks `"AAA BBB CCC"` (3 tokens) and
`"CCC\n\nDDD EEE FFF"` (4 tokens) are produced, the second beginning with
the last overlap token of the first. -/
theorem chunker_overlap_and_example (chunkSize chunkOverlap : ℕ)
    (st : ChunkState) (paragraph : String)
    (hfull : st.currentTokens + pyTokens paragraph > chunkSize)
    (hne : st.currentChunk ≠ "") :
    chunkStep chunkSize chunkOverlap st paragraph =
      { chunks := st.chunks ++ [st.currentChunk]
        currentChunk :=
          String.intercalate " "
              (takeLastPy chunkOverlap (pyWords st.currentChunk)) ++
            "\n\n" ++ paragraph
        currentTokens :=
          (takeLastPy chunkOverlap (pyWords st.currentChunk)).length +
            pyTokens paragraph } ∧
      chunkDocument 4 1 "AAA BBB CCC\n\nDDD EEE FFF" =
        ["AAA BBB CCC", "CCC\n\nDDD EEE FFF"] ∧
      pyTokens "AAA BBB CCC" = 3 ∧ pyTokens "CCC\n\nDDD EEE FFF" = 4 := by
  refine ⟨?_, by decide, by decide, by decide⟩
  rw [chunkStep, if_pos ⟨hfull, hne⟩]

/-- Witness for C8 at a concrete full buffer. -/
theorem chunker_overlap_and_example_witness :
    ((⟨[], "AAA BBB CCC", 3⟩ : ChunkState).currentTokens +
        pyTokens "DDD EEE FFF" > 4 ∧
      (⟨[], "AAA BBB CCC", 3⟩ : ChunkState).currentChunk ≠ "") ∧
      chunkStep 4 1 ⟨[], "AAA BBB CCC", 3⟩ "DDD EEE FFF" =
        { chunks := ["AAA BBB CCC"]
          currentChunk :=
            String.intercalate " "
                (takeLastPy 1 (pyWords "AAA BBB CCC")) ++
              "\n\n" ++ "DDD EEE FFF"
          currentTokens := (takeLastPy 1 (pyWords "AAA BBB CCC")).length +
            pyTokens "DDD EEE FFF" } :=
  ⟨⟨by decide, by decide⟩,
    (chunker_overlap_and_example 4 1 ⟨[], "AAA BBB CCC", 3⟩ "DDD EEE FFF"
      (by decide) (by decide)).1⟩

theorem toFinset_storeDelete (ids store : List String) :
    (storeDelete ids store).toFinset = store.toFinset \ ids.toFinset := by
  ext x
  simp [storeDelete, List.mem_filter]

theorem toFinset_storeUpsert (ids store : List String) :
    (storeUpsert ids store).toFinset = store.toFinset ∪ ids.toFinset := by
  induction ids generalizing store with
  | nil => simp [storeUpsert]
  | cons c ids ih =>
    have hstep : storeUpsert (c :: ids) store =
        storeUpsert ids (if c ∈ store then store else store ++ [c]) := by
      simp [storeUpsert]
    rw [hstep, ih]
    by_cases hc : c ∈ store
    · rw [if_pos hc]
      ext x
      by_cases hx : x = c <;> simp [hx, hc]
    · rw [if_neg hc]
      ext x
      by_cases hx : x = c <;> simp [hx]

theorem toFinset_dedupList (l : List String) :
    l.dedup.toFinset = l.toFinset := by
  ext x
  simp

theorem getManifest_setManifest (ms : List (String × Manifest))
    (docId : String) (m : Manifest) :
    getManifest (setManifest ms docId m) docId = some m := by
  induction ms with
  | nil => simp [setManifest, getManifest]
  | cons p rest ih =>
    obtain ⟨key, m'⟩ := p
    by_cases hk : key = docId
    · simp [setManifest, getManifest, hk]
    · simp [setManifest, getManifest, hk, ih]

/-- C2. After a successful text-sink run the indexed chunk set of the
document equals the new chunk set and the stored manifest's `chunk_ids`;
in the two-run scenario (first ingest `[c1, c2]`, second ingest
`[c2, c3]`) the final indexes hold exactly `c2, c3`, exactly `c1` was
deleted, and the manifest lists `[c2, c3]`. -/
theorem text_sink_converges (st : SinkState) (docId : String)
    (m : Manifest) (newIds : List String)
    (hman : getManifest st.manifests docId = some m)
    (hvec : st.vectorStore.toFinset = m.chunkIds.toFinset)
    (htext : st.textIndex.toFinset = m.chunkIds.toFinset) :
    ((processDocument st docId newIds).state.vectorStore.toFinset =
        newIds.toFinset ∧
      (processDocument st docId newIds).state.textIndex.toFinset =
        newIds.toFinset ∧
      (getManifest (processDocument st docId newIds).state.manifests docId).map
          Manifest.chunkIds = some newIds ∧
      (processDocument st docId newIds).deleted.toFinset =
        m.chunkIds.toFinset \ newIds.toFinset) ∧
      ((processDocument
          (processDocument ⟨[], [], []⟩ "D" ["c1", "c2"]).state
          "D" ["c2", "c3"]).state.vectorStore = ["c2", "c3"] ∧
        (processDocument
          (processDocument ⟨[], [], []⟩ "D" ["c1", "c2"]).state
          "D" ["c2", "c3"]).state.textIndex = ["c2", "c3"] ∧
        (processDocument
          (processDocument ⟨[], [], []⟩ "D" ["c1", "c2"]).state
          "D" ["c2", "c3"]).deleted = ["c1"] ∧
        (getManifest (processDocument
          (processDocument ⟨[], [], []⟩ "D" ["c1", "c2"]).state
          "D" ["c2", "c3"]).state.manifests "D").map Manifest.chunkIds =
          some ["c2", "c3"]) := by
  refine ⟨?_, by decide, by decide, by decide, by decide⟩
  have hsets : ∀ base : List String, base.toFinset = m.chunkIds.toFinset →
      (storeUpsert newIds
        (storeDelete ((m.chunkIds.filter (fun c => c ∉ newIds)).dedup)
          base)).toFinset = newIds.toFinset := by
    intro base hbase
    rw [toFinset_storeUpsert, toFinset_storeDelete, hbase, toFinset_dedupList]
    have hfilter : (m.chunkIds.filter (fun c => c ∉ newIds)).toFinset =
        m.chunkIds.toFinset \ newIds.toFinset := by
      ext x
      simp [List.mem_filter]
    rw [hfilter, Finset.sdiff_sdiff_self_left]
    exact Finset.union_eq_right.mpr Finset.inter_subset_right
  simp only [processDocument, hman, deleteChunks, indexChunks]
  refine ⟨hsets st.vectorStore hvec, hsets st.textIndex htext, ?_, ?_⟩
  · rw [getManifest_setManifest]
    simp
  · rw [toFinset_dedupList]
    ext x
    simp [List.mem_filter]

/-- Witness for C2 at the concrete two-run scenario. -/
theorem text_sink_converges_witness :
    (getManifest
        (processDocument ⟨[], [], []⟩ "D" ["c1", "c2"]).state.manifests "D" =
      some ⟨"D", 2, ["c1", "c2"]⟩) ∧
      (processDocument
          (processDocument ⟨[], [], []⟩ "D" ["c1", "c2"]).state
          "D" ["c2", "c3"]).deleted = ["c1"] :=
  ⟨by decide,
    (text_sink_converges
      (processDocument ⟨[], [], []⟩ "D" ["c1", "c2"]).state
      "D" ⟨"D", 2, ["c1", "c2"]⟩ ["c2", "c3"]
      (by decide) (by decide) (by decide)).2.2.2.1⟩

theorem handleStep_no_overlap (nid : String) (ns ne : Int)
    (acc : List StoredEdge × EdgeProps) (e : StoredEdge)
    (h : overlapB ns ne e = false) :
    handleStep nid ns ne acc e = acc := by
  simp [handleStep, h]

theorem foldl_handleStep_of_no_overlap (nid : String) (ns ne : Int)
    (edges : List StoredEdge) (acc : List StoredEdge × EdgeProps)
    (h : ∀ e ∈ edges, overlapB ns ne e = false) :
    edges.foldl (handleStep nid ns ne) acc = acc := by
  induction edges generalizing acc with
  | nil => rfl
  | cons e es ih =>
    rw [List.foldl_cons,
      handleStep_no_overlap nid ns ne acc e (h e (List.mem_cons_self e es))]
    exact ih acc fun e' he' => h e' (List.mem_cons_of_mem e he')

theorem foldl_handleStep_single (nid : String) (ns ne : Int)
    (edges : List StoredEdge) (acc : List StoredEdge × EdgeProps)
    (hone : (edges.filter (overlapB ns ne)).length ≤ 1) :
    edges.foldl (handleStep nid ns ne) acc = acc ∨
      ∃ e ∈ edges, overlapB ns ne e = true ∧
        edges.foldl (handleStep nid ns ne) acc = handleStep nid ns ne acc e := by
  induction edges generalizing acc with
  | nil => exact Or.inl rfl
  | cons e es ih =>
    by_cases he : overlapB ns ne e = true
    · right
      refine ⟨e, List.mem_cons_self e es, he, ?_⟩
      have hlen : (es.filter (overlapB ns ne)).length = 0 := by
        rw [List.filter_cons, if_pos he] at hone
        simpa using hone
      have hes : ∀ e' ∈ es, overlapB ns ne e' = false := by
        intro e' he'
        by_contra hcon
        have : e' ∈ es.filter (overlapB ns ne) :=
          List.mem_filter.mpr ⟨he', by simpa using hcon⟩
        rw [List.length_eq_zero.mp hlen] at this
        simp at this
      rw [List.foldl_cons]
      exact foldl_handleStep_of_no_overlap nid ns ne es _ hes
    · have he' : overlapB ns ne e = false := by simpa using he
      have hone' : (es.filter (overlapB ns ne)).length ≤ 1 := by
        rw [List.filter_cons, if_neg (by simp [he'])] at hone
        exact hone
      rw [List.foldl_cons, handleStep_no_overlap nid ns ne acc e he']
      rcases ih acc hone' with h | ⟨e', h1, h2, h3⟩
      · exact Or.inl h
      · exact Or.inr ⟨e', List.mem_cons_of_mem e h1, h2, h3⟩

theorem ids_updateEdge (store : List StoredEdge) (edgeId : String)
    (props : EdgeProps) :
    (updateEdge store edgeId props).map StoredEdge.id =
      store.map StoredEdge.id := by
  induction store with
  | nil => rfl
  | cons e es ih =>
    by_cases hk : e.id = edgeId
    · simp only [updateEdge, List.map_cons] at ih ⊢
      rw [if_pos hk]
      simp [ih, hk]
    · simp only [updateEdge, List.map_cons] at ih ⊢
      rw [if_neg hk]
      simp [ih]

theorem createEdge_fresh (store : List StoredEdge) (edgeId : String)
    (props : EdgeProps) (h : edgeId ∉ store.map StoredEdge.id) :
    createEdge store edgeId props = store ++ [⟨edgeId, props⟩] := by
  have hany : store.any (fun e => e.id = edgeId) = false := by
    rw [List.any_eq_false]
    intro e he
    simp only [decide_eq_true_eq]
    intro hcon
    exact h (hcon ▸ List.mem_map_of_mem StoredEdge.id he)
  rw [createEdge, if_neg (by simp [hany])]

theorem pairwise_imp_mem {R S : α → α → Prop} {l : List α}
    (h : ∀ a ∈ l, ∀ b ∈ l, R a b → S a b) (hp : l.Pairwise R) :
    l.Pairwise S := by
  induction l with
  | nil => exact List.Pairwise.nil
  | cons x xs ih =>
    rcases List.pairwise_cons.mp hp with ⟨hx, hxs⟩
    refine List.pairwise_cons.mpr ⟨?_, ?_⟩
    · intro b hb
      exact h x (List.mem_cons_self x xs) b (List.mem_cons_of_mem x hb)
        (hx b hb)
    · exact ih
        (fun a ha b hb => h a (List.mem_cons_of_mem x ha) b
          (List.mem_cons_of_mem x hb)) hxs

/-- The store produced by the higher-confidence branch (and the winning
equal-confidence branch): truncate the overlapped edge to end at the new
start, then insert the new edge unchanged.  It restores non-overlap when
the overlapped edge is the only existing edge overlapping the new one. -/
theorem pairwise_strategy1 (existing : List StoredEdge) (np : EdgeProps)
    (nid : String) (e : StoredEdge)
    (he : e ∈ existing)
    (hidnd : (existing.map StoredEdge.id).Nodup)
    (hnid : nid ∉ existing.map StoredEdge.id)
    (hov : overlapB np.tStart np.tEnd e = true)
    (hdisj : pairwiseNonOverlap existing)
    (hothers : ∀ e' ∈ existing, e' ≠ e →
      overlapB np.tStart np.tEnd e' = false) :
    pairwiseNonOverlap
      (createEdge (updateEdge existing e.id { e.props with tEnd := np.tStart })
        nid np) := by
  have hov' : np.tStart ≤ e.props.tEnd ∧ np.tEnd ≥ e.props.tStart := by
    simpa [overlapB] using hov
  have hinj := List.inj_on_of_nodup_map hidnd
  have hid_eq : ∀ x ∈ existing, x.id = e.id → x = e := by
    intro x hx hxid
    exact hinj hx he hxid
  have hfresh : nid ∉ (updateEdge existing e.id
      { e.props with tEnd := np.tStart }).map StoredEdge.id := by
    rw [ids_updateEdge]; exact hnid
  rw [createEdge_fresh _ _ _ hfresh]
  rw [pairwiseNonOverlap, List.pairwise_append]
  refine ⟨?_, List.pairwise_singleton _ _, ?_⟩
  · -- truncating an edge only shrinks its window
    rw [updateEdge, List.pairwise_map]
    refine pairwise_imp_mem ?_ hdisj
    intro a ha b hb hab t ht
    rcases ht with ⟨ht1, ht2⟩
    refine hab t ⟨?_, ?_⟩
    · by_cases hida : a.id = e.id
      · rw [if_pos hida] at ht1
        have hae : a = e := hid_eq a ha hida
        have ht1' : e.props.tStart ≤ t ∧ t < np.tStart := by
          simpa [validAt] using ht1
        rw [hae, validAt]
        exact ⟨ht1'.1, by omega⟩
      · rwa [if_neg hida] at ht1
    · by_cases hidb : b.id = e.id
      · rw [if_pos hidb] at ht2
        have hbe : b = e := hid_eq b hb hidb
        have ht2' : e.props.tStart ≤ t ∧ t < np.tStart := by
          simpa [validAt] using ht2
        rw [hbe, validAt]
        exact ⟨ht2'.1, by omega⟩
      · rwa [if_neg hidb] at ht2
  · -- the new edge is disjoint from every updated edge
    intro a ha b hb
    simp only [List.mem_singleton] at hb
    subst hb
    rcases List.mem_map.mp ha with ⟨x, hx, hfx⟩
    by_cases hidx : x.id = e.id
    · rw [if_pos hidx] at hfx
      intro t ht
      rcases ht with ⟨hta, htb⟩
      rw [← hfx] at hta
      have hta' : e.props.tStart ≤ t ∧ t < np.tStart := by
        simpa [validAt] using hta
      have htb' : np.tStart ≤ t ∧ t < np.tEnd := by
        simpa [validAt] using htb
      omega
    · rw [if_neg hidx] at hfx
      have hxe : x ≠ e := fun hcon => hidx (hcon ▸ rfl)
      have hnov : ¬(np.tStart ≤ x.props.tEnd ∧ np.tEnd ≥ x.props.tStart) := by
        simpa [overlapB] using hothers x hx hxe
      intro t ht
      rcases ht with ⟨hta, htb⟩
      rw [← hfx] at hta
      have hta' : x.props.tStart ≤ t ∧ t < x.props.tEnd := by
        simpa [validAt] using hta
      have htb' : np.tStart ≤ t ∧ t < np.tEnd := by
        simpa [validAt] using htb
      omega

/-- Applying the conflict loop body to the unique overlapping edge
preserves the non-overlap invariant. -/
theorem pairwise_handleStep (existing : List StoredEdge) (np : EdgeProps)
    (nid : String) (e : StoredEdge)
    (he : e ∈ existing)
    (hidnd : (existing.map StoredEdge.id).Nodup)
    (hnid : nid ∉ existing.map StoredEdge.id)
    (hnid2 : (nid ++ ":after") ∉ existing.map StoredEdge.id)
    (hov : overlapB np.tStart np.tEnd e = true)
    (hdisj : pairwiseNonOverlap existing)
    (hothers : ∀ e' ∈ existing, e' ≠ e →
      overlapB np.tStart np.tEnd e' = false) :
    pairwiseNonOverlap
      (handleStep nid np.tStart np.tEnd (existing, np) e).1 := by
  have hov' : np.tStart ≤ e.props.tEnd ∧ np.tEnd ≥ e.props.tStart := by
    simpa [overlapB] using hov
  have happend : ∀ np1 : EdgeProps, np.tStart ≤ np1.tStart →
      np1.tEnd ≤ np.tEnd →
      (∀ t : Int, validAt ⟨nid, np1⟩ t → ¬validAt e t) →
      pairwiseNonOverlap (existing ++ [⟨nid, np1⟩]) := by
    intro np1 hs1 hs2 hdise
    rw [pairwiseNonOverlap, List.pairwise_append]
    refine ⟨hdisj, List.pairwise_singleton _ _, ?_⟩
    intro a ha b hb
    simp only [List.mem_singleton] at hb
    subst hb
    by_cases hae : a = e
    · subst hae
      intro t ht
      exact hdise t ht.2 ht.1
    · have hnov : ¬(np.tStart ≤ a.props.tEnd ∧ np.tEnd ≥ a.props.tStart) := by
        simpa [overlapB] using hothers a ha hae
      intro t ht
      rcases ht with ⟨hta, htb⟩
      have hta' : a.props.tStart ≤ t ∧ t < a.props.tEnd := by
        simpa [validAt] using hta
      have htb' : np1.tStart ≤ t ∧ t < np1.tEnd := by
        simpa [validAt] using htb
      omega
  simp only [handleStep]
  rw [if_pos hov]
  by_cases hc1 : np.confidence > e.props.confidence
  · rw [if_pos hc1]
    exact pairwise_strategy1 existing np nid e he hidnd hnid hov hdisj hothers
  · rw [if_neg hc1]
    by_cases hc2 : np.confidence < e.props.confidence
    · rw [if_pos hc2]
      by_cases hs1 : np.tStart < e.props.tStart
      · rw [if_pos hs1]
        show pairwiseNonOverlap
          (createEdge existing nid { np with tEnd := e.props.tStart })
        rw [createEdge_fresh _ _ _ hnid]
        refine happend _ le_rfl (by simpa using hov'.2) ?_
        intro t ht hte
        rcases ht with ⟨_, h2⟩
        rcases hte with ⟨h3, _⟩
        simp only at h2
        omega
      · rw [if_neg hs1]
        by_cases hs2 : np.tEnd > e.props.tEnd
        · rw [if_pos hs2]
          show pairwiseNonOverlap
            (createEdge existing (nid ++ ":after")
              { np with tStart := e.props.tEnd })
          rw [createEdge_fresh _ _ _ hnid2]
          rw [pairwiseNonOverlap, List.pairwise_append]
          refine ⟨hdisj, List.pairwise_singleton _ _, ?_⟩
          intro a ha b hb
          simp only [List.mem_singleton] at hb
          subst hb
          by_cases hae : a = e
          · subst hae
            intro t ht
            rcases ht with ⟨⟨_, h2⟩, ⟨h3, _⟩⟩
            simp only at h3
            omega
          · have hnov := hothers a ha hae
            simp only [overlapB, decide_eq_false_iff_not, not_and, not_le,
              ge_iff_le] at hnov
            intro t ht
            rcases ht with ⟨⟨h1, h2⟩, ⟨h3, h4⟩⟩
            simp only at h3 h4
            omega
        · rw [if_neg hs2]
          exact hdisj
    · rw [if_neg hc2]
      have hres := pairwise_strategy1 existing np nid e he hidnd hnid hov
        hdisj hothers
      rcases hts : e.props.tsExtracted with _ | oldTs
      · simp only [hts] at hres
        simpa [tsWins] using hres
      · rcases hts2 : np.tsExtracted with _ | newTs
        · simpa [tsWins] using hdisj
        · simp only [hts] at hres
          by_cases hgt : newTs > oldTs
          · simpa [tsWins, hgt] using hres
          · simpa [tsWins, hgt] using hdisj

/-- C3 (amended). When the stored edges of a relation are pairwise
non-overlapping and at most one of them overlaps the incoming edge (edge
ids distinct, the new edge's ids fresh), conflict resolution restores the
non-overlap invariant, and the existing edges are processed in ascending
`t_valid_start`.  (With two or more overlapping existing edges the handler
can leave overlapping windows; see the counterexample.) -/
theorem edge_conflict_invariant_single (existing : List StoredEdge)
    (np : EdgeProps) (nid : String)
    (hidnd : (existing.map StoredEdge.id).Nodup)
    (hnid : nid ∉ existing.map StoredEdge.id)
    (hnid2 : (nid ++ ":after") ∉ existing.map StoredEdge.id)
    (hdisj : pairwiseNonOverlap existing)
    (hone : (existing.filter (overlapB np.tStart np.tEnd)).length ≤ 1) :
    pairwiseNonOverlap (handleEdgeConflicts existing np nid) ∧
      (sortBy edgeKeep existing).Pairwise
        (fun a b => a.props.tStart ≤ b.props.tStart) := by
  constructor
  · have hperm := perm_sortBy edgeKeep existing
    have hone' : ((sortBy edgeKeep existing).filter
        (overlapB np.tStart np.tEnd)).length ≤ 1 := by
      rw [(hperm.filter _).length_eq]
      exact hone
    rcases foldl_handleStep_single nid np.tStart np.tEnd
        (sortBy edgeKeep existing) (existing, np) hone'
      with heq | ⟨e, hmem, hov, heq⟩
    · rw [handleEdgeConflicts, heq]
      exact hdisj
    · rw [handleEdgeConflicts, heq]
      have he : e ∈ existing := hperm.mem_iff.mp hmem
      have hef : e ∈ existing.filter (overlapB np.tStart np.tEnd) :=
        List.mem_filter.mpr ⟨he, hov⟩
      have hlen1 : (existing.filter (overlapB np.tStart np.tEnd)).length = 1 := by
        have := List.length_pos_of_mem hef
        omega
      rcases List.length_eq_one.mp hlen1 with ⟨a, ha⟩
      have hae : e = a := by
        have h := hef
        rw [ha] at h
        simpa using h
      have hothers : ∀ e' ∈ existing, e' ≠ e →
          overlapB np.tStart np.tEnd e' = false := by
        intro e' he' hne
        by_contra hcon
        have hcon' : overlapB np.tStart np.tEnd e' = true := by simpa using hcon
        have h : e' ∈ existing.filter (overlapB np.tStart np.tEnd) :=
          List.mem_filter.mpr ⟨he', hcon'⟩
        rw [ha] at h
        simp only [List.mem_singleton] at h
        exact hne (by rw [h, ← hae])
      exact pairwise_handleStep existing np nid e he hidnd hnid hnid2 hov
        hdisj hothers
  · have h := pairwise_sortBy edgeKeep
      (fun a b => by
        simp only [edgeKeep, decide_eq_true_eq]
        exact le_total a.props.tStart b.props.tStart)
      (fun a b c hab hbc => by
        simp only [edgeKeep, decide_eq_true_eq] at *
        exact le_trans hab hbc)
      existing
    exact h.imp (by simp [edgeKeep])

/-- Witness for the amended C3 at a concrete single-conflict insert. -/
theorem edge_conflict_invariant_single_witness :
    (((([⟨"E", ⟨1, 0, 10, some 0⟩⟩] : List StoredEdge).map
          StoredEdge.id).Nodup) ∧
      "N" ∉ ([⟨"E", ⟨1, 0, 10, some 0⟩⟩] : List StoredEdge).map StoredEdge.id ∧
      "N" ++ ":after" ∉
        ([⟨"E", ⟨1, 0, 10, some 0⟩⟩] : List StoredEdge).map StoredEdge.id ∧
      (([⟨"E", ⟨1, 0, 10, some 0⟩⟩] : List StoredEdge).filter
        (overlapB (5 : Int) (15 : Int))).length ≤ 1) ∧
      pairwiseNonOverlap
        (handleEdgeConflicts [⟨"E", ⟨1, 0, 10, some 0⟩⟩]
          ⟨2, 5, 15, some 1⟩ "N") :=
  ⟨⟨by decide, by decide, by decide, by decide⟩,
    (edge_conflict_invariant_single [⟨"E", ⟨1, 0, 10, some 0⟩⟩]
      ⟨2, 5, 15, some 1⟩ "N" (by decide) (by decide) (by decide)
      (by simp [pairwiseNonOverlap]) (by decide)).1⟩

/-- Counterexample to C3 as stated: two pairwise-disjoint existing edges
(`[0,10)` and `[11,20)`, confidence 2) both overlap the incoming edge
(`[5,25)`, confidence 1); after the insert two stored edges are valid at
`t = 12`, so the non-overlap invariant is not restored. -/
theorem edge_conflict_multi_overlap_violated :
    pairwiseNonOverlap
        [⟨"E1", ⟨2, 0, 10, some 0⟩⟩, ⟨"E2", ⟨2, 11, 20, some 0⟩⟩] ∧
      countValid
        (handleEdgeConflicts
          [⟨"E1", ⟨2, 0, 10, some 0⟩⟩, ⟨"E2", ⟨2, 11, 20, some 0⟩⟩]
          ⟨1, 5, 25, some 1⟩ "N") 12 = 2 := by
  constructor
  · rw [pairwiseNonOverlap]
    refine List.pairwise_cons.mpr ⟨?_, List.pairwise_singleton _ _⟩
    intro b hb
    simp only [List.mem_singleton] at hb
    subst hb
    intro t ht
    have h1 : (0 : Int) ≤ t ∧ t < 10 := by simpa [validAt] using ht.1
    have h2 : (11 : Int) ≤ t ∧ t < 20 := by simpa [validAt] using ht.2
    omega
  · simp only [handleEdgeConflicts, sortBy, List.foldl, insertBy, edgeKeep]
    norm_num [handleStep, overlapB, updateEdge, createEdge, tsWins]
    norm_num [countValid, validAt, List.filter]

/-- C4. Inserting an edge with higher confidence than the single
overlapping existing edge truncates the existing edge to end at the new
start and stores the new edge unchanged; concretely, existing confidence
0.8 on `[2020-01-01, 2025-01-01)` against new confidence 0.9 on
`[2023-06-01, 2026-01-01)` leaves the existing edge on
`[2020-01-01, 2023-06-01)` and the new edge with its original window. -/
theorem edge_conflict_higher_confidence (E : StoredEdge) (np : EdgeProps)
    (nid : String)
    (hov : overlapB np.tStart np.tEnd E = true)
    (hconf : np.confidence > E.props.confidence)
    (hid : nid ≠ E.id) :
    handleEdgeConflicts [E] np nid =
        [⟨E.id, { E.props with tEnd := np.tStart }⟩, ⟨nid, np⟩] ∧
      handleEdgeConflicts
          [⟨"E", ⟨8/10, 20200101, 20250101, some 0⟩⟩]
          ⟨9/10, 20230601, 20260101, some 1⟩ "N" =
        [⟨"E", ⟨8/10, 20200101, 20230601, some 0⟩⟩,
          ⟨"N", ⟨9/10, 20230601, 20260101, some 1⟩⟩] := by
  constructor
  · have hupd : updateEdge [E] E.id { E.props with tEnd := np.tStart } =
        [⟨E.id, { E.props with tEnd := np.tStart }⟩] := by
      simp [updateEdge]
    have hfresh : nid ∉
        ([⟨E.id, { E.props with tEnd := np.tStart }⟩] :
          List StoredEdge).map StoredEdge.id := by
      simp [hid]
    simp only [handleEdgeConflicts, sortBy, List.foldl, insertBy, handleStep]
    rw [if_pos hov, if_pos hconf, hupd, createEdge_fresh _ _ _ hfresh]
    simp
  · simp only [handleEdgeConflicts, sortBy, List.foldl, insertBy]
    norm_num [handleStep, overlapB, updateEdge, createEdge, tsWins]
    decide

/-- Witness for C4 at the concrete dates of the spec scenario. -/
theorem edge_conflict_higher_confidence_witness :
    (overlapB (20230601 : Int) (20260101 : Int)
        ⟨"E", ⟨8/10, 20200101, 20250101, some 0⟩⟩ = true ∧
      (9 / 10 : ℚ) > 8 / 10 ∧ "N" ≠ "E") ∧
      handleEdgeConflicts [⟨"E", ⟨8/10, 20200101, 20250101, some 0⟩⟩]
          ⟨9/10, 20230601, 20260101, some 1⟩ "N" =
        [⟨"E", ⟨8/10, 20200101, 20230601, some 0⟩⟩,
          ⟨"N", ⟨9/10, 20230601, 20260101, some 1⟩⟩] :=
  ⟨⟨by decide, by norm_num, by decide⟩,
    (edge_conflict_higher_confidence
      ⟨"E", ⟨8/10, 20200101, 20250101, some 0⟩⟩
      ⟨9/10, 20230601, 20260101, some 1⟩ "N"
      (by decide) (by norm_num) (by decide)).2⟩

/-- C7. A payload lacking both `id` and `source_id` is normalized
successfully: the synthesized `source_id` is the MD5 of the canonical
(sort-keyed) JSON serialization of the payload, and the document id is
`tenant:source_tool:<md5-of-payload>`. -/
theorem normalize_synthesizes_md5_source_id (md5 : String → String)
    (now : String) (item : List (String × Json)) (toolId tenantId : String)
    (hid : lookupField item "id" = none)
    (hsrc : lookupField item "source_id" = none) :
    (normalizeToDocument md5 now item toolId tenantId).sourceId =
        .str (md5 (dumps (.obj item))) ∧
      (normalizeToDocument md5 now item toolId tenantId).id =
        tenantId ++ ":" ++ toolId ++ ":" ++ md5 (dumps (.obj item)) := by
  have hor : pyGetOr item "id" "source_id" = none := by
    rw [pyGetOr, hid, hsrc]
  constructor
  · simp only [normalizeToDocument, hor]
  · simp only [normalizeToDocument, hor, pyStr]

/-- Witness for C7 at a concrete payload with no source id. -/
theorem normalize_synthesizes_md5_source_id_witness :
    (lookupField [("content", Json.str "hello")] "id" = none ∧
      lookupField [("content", Json.str "hello")] "source_id" = none) ∧
      (normalizeToDocument (fun s => s) "t0" [("content", Json.str "hello")]
          "jira" "acme").id =
        "acme" ++ ":" ++ "jira" ++ ":" ++
          (fun s => s) (dumps (.obj [("content", Json.str "hello")])) :=
  ⟨⟨rfl, rfl⟩,
    (normalize_synthesizes_md5_source_id (fun s => s) "t0"
      [("content", Json.str "hello")] "jira" "acme" rfl rfl).2⟩

theorem runIngestion_allFail_defaults (md5 : String → String) (now : String)
    (attempts : ℕ → Except McpError ToolResponse) (uniform : ℕ → ℚ)
    (toolId tenantId : String) (params : List (String × Json))
    (e : ℕ → McpError) (hfail : ∀ n, attempts n = .error (e n)) :
    runIngestion md5 now attempts uniform ⟨3, 1, 2, 1/10⟩ toolId tenantId
        params =
      { outcome := .error (e 3)
        delays := [max 0 (1 * 2 ^ 0 + uniform 0 * (1 * 2 ^ 0)),
          max 0 (1 * 2 ^ 1 + uniform 1 * (1 * 2 ^ 1)),
          max 0 (1 * 2 ^ 2 + uniform 2 * (1 * 2 ^ 2))]
        dlq := [⟨toolId, tenantId, params, errStr (e 3), now, 3⟩]
        produced := []
        checkpointCursor := none
        invocations := 4 } := by
  simp only [runIngestion, runLoop, hfail 0, hfail 1, hfail 2, hfail 3]
  norm_num

/-- C5. When every tool invocation fails (defaults `max_retries=3`,
`retry_delay=1`, `retry_backoff=2`, `retry_jitter=0.1`), the worker sleeps
`1·(1+u0)`, `2·(1+u1)`, `4·(1+u2)` seconds (each within ±10% of 1, 2, 4),
produces exactly one DLQ record `{tool_id, tenant_id, params, error,
retry_count, timestamp}` with `retry_count = 3` on the `ingestion_dlq`
topic, and re-raises the last error. -/
theorem retry_backoff_then_dlq (md5 : String → String) (now : String)
    (attempts : ℕ → Except McpError ToolResponse) (uniform : ℕ → ℚ)
    (toolId tenantId : String) (params : List (String × Json))
    (e : ℕ → McpError)
    (hfail : ∀ n, attempts n = .error (e n))
    (hjit : ∀ n, |uniform n| ≤ 1/10) :
    (runIngestion md5 now attempts uniform ⟨3, 1, 2, 1/10⟩ toolId tenantId
        params).delays =
        [1 * (1 + uniform 0), 2 * (1 + uniform 1), 4 * (1 + uniform 2)] ∧
      (∀ d ∈ ((runIngestion md5 now attempts uniform ⟨3, 1, 2, 1/10⟩ toolId
          tenantId params).delays.zip [1, 2, 4]), |d.1 - d.2| ≤ d.2 / 10) ∧
      (runIngestion md5 now attempts uniform ⟨3, 1, 2, 1/10⟩ toolId tenantId
          params).dlq =
        [⟨toolId, tenantId, params, errStr (e 3), now, 3⟩] ∧
      (runIngestion md5 now attempts uniform ⟨3, 1, 2, 1/10⟩ toolId tenantId
          params).outcome = .error (e 3) := by
  have hres := runIngestion_allFail_defaults md5 now attempts uniform toolId
    tenantId params e hfail
  have habs : ∀ n, -(1/10 : ℚ) ≤ uniform n ∧ uniform n ≤ 1/10 :=
    fun n => abs_le.mp (hjit n)
  have h0 : max (0:ℚ) (1 * 2 ^ 0 + uniform 0 * (1 * 2 ^ 0)) =
      1 * (1 + uniform 0) := by
    have h := habs 0
    rw [max_eq_right (by nlinarith)]
    ring
  have h1 : max (0:ℚ) (1 * 2 ^ 1 + uniform 1 * (1 * 2 ^ 1)) =
      2 * (1 + uniform 1) := by
    have h := habs 1
    rw [max_eq_right (by nlinarith)]
    ring
  have h2 : max (0:ℚ) (1 * 2 ^ 2 + uniform 2 * (1 * 2 ^ 2)) =
      4 * (1 + uniform 2) := by
    have h := habs 2
    rw [max_eq_right (by nlinarith)]
    ring
  have hdel : (runIngestion md5 now attempts uniform ⟨3, 1, 2, 1/10⟩ toolId
      tenantId params).delays =
      [1 * (1 + uniform 0), 2 * (1 + uniform 1), 4 * (1 + uniform 2)] := by
    rw [hres]
    simp only [h0, h1, h2]
  refine ⟨hdel, ?_, by rw [hres], by rw [hres]⟩
  rw [hdel]
  intro d hd
  simp only [List.zip_cons_cons, List.zip_nil_right, List.mem_cons,
    List.not_mem_nil, or_false] at hd
  rcases hd with rfl | rfl | rfl
  · have h := habs 0
    have heq : 1 * (1 + uniform 0) - 1 = uniform 0 := by ring
    simpa [heq] using abs_le.mpr ⟨by linarith [h.1], by linarith [h.2]⟩
  · have h := habs 1
    have heq : 2 * (1 + uniform 1) - 2 = 2 * uniform 1 := by ring
    rw [heq]
    rw [abs_le]
    constructor <;> [nlinarith [h.1]; nlinarith [h.2]]
  · have h := habs 2
    have heq : 4 * (1 + uniform 2) - 4 = 4 * uniform 2 := by ring
    rw [heq]
    rw [abs_le]
    constructor <;> [nlinarith [h.1]; nlinarith [h.2]]

/-- Witness for C5 with a `Timeout` failing every attempt and zero jitter. -/
theorem retry_backoff_then_dlq_witness :
    ((∀ n : ℕ,
        (fun _ : ℕ =>
          (Except.error (McpError.timeout "Timeout") :
            Except McpError ToolResponse)) n =
          .error ((fun _ : ℕ => McpError.timeout "Timeout") n)) ∧
      (∀ n : ℕ, |(fun _ : ℕ => (0 : ℚ)) n| ≤ 1/10)) ∧
      (runIngestion (fun s => s) "t0"
          (fun _ => .error (.timeout "Timeout")) (fun _ => 0)
          ⟨3, 1, 2, 1/10⟩ "srv.tool" "acme" []).dlq =
        [⟨"srv.tool", "acme", [], errStr (.timeout "Timeout"), "t0", 3⟩] :=
  ⟨⟨fun _ => rfl, fun _ => by norm_num⟩,
    (retry_backoff_then_dlq (fun s => s) "t0"
      (fun _ => .error (.timeout "Timeout")) (fun _ => 0) "srv.tool" "acme"
      [] (fun _ => .timeout "Timeout") (fun _ => rfl)
      (fun _ => by norm_num)).2.2.1⟩

/-- C6 (amended). No failure kind is exempt from retry or DLQ: every
tool-invocation error — including `PermissionDenied` and `SchemaInvalid` —
is retried with backoff (4 invocations, 3 sleeps under the defaults) and
produces one DLQ record on exhaustion before the error is re-raised. -/
theorem every_error_retried_and_dlqd (md5 : String → String) (now : String)
    (attempts : ℕ → Except McpError ToolResponse) (uniform : ℕ → ℚ)
    (toolId tenantId : String) (params : List (String × Json))
    (err : McpError)
    (hfail : ∀ n, attempts n = .error err) :
    (runIngestion md5 now attempts uniform ⟨3, 1, 2, 1/10⟩ toolId tenantId
        params).invocations = 4 ∧
      (runIngestion md5 now attempts uniform ⟨3, 1, 2, 1/10⟩ toolId tenantId
          params).delays.length = 3 ∧
      (runIngestion md5 now attempts uniform ⟨3, 1, 2, 1/10⟩ toolId tenantId
          params).dlq =
        [⟨toolId, tenantId, params, errStr err, now, 3⟩] ∧
      (runIngestion md5 now attempts uniform ⟨3, 1, 2, 1/10⟩ toolId tenantId
          params).outcome = .error err := by
  have hres := runIngestion_allFail_defaults md5 now attempts uniform toolId
    tenantId params (fun _ => err) hfail
  rw [hres]
  refine ⟨rfl, rfl, rfl, rfl⟩

/-- Witness for the amended C6 with `PermissionDenied` failing every
attempt. -/
theorem every_error_retried_and_dlqd_witness :
    (∀ n : ℕ,
        (fun _ : ℕ =>
          (Except.error (McpError.permissionDenied "not allowed") :
            Except McpError ToolResponse)) n =
          .error (McpError.permissionDenied "not allowed")) ∧
      (runIngestion (fun s => s) "t0"
          (fun _ => .error (.permissionDenied "not allowed")) (fun _ => 0)
          ⟨3, 1, 2, 1/10⟩ "srv.tool" "acme" []).invocations = 4 :=
  ⟨fun _ => rfl,
    (every_error_retried_and_dlqd (fun s => s) "t0"
      (fun _ => .error (.permissionDenied "not allowed")) (fun _ => 0)
      "srv.tool" "acme" [] (.permissionDenied "not allowed")
      (fun _ => rfl)).1⟩

/-- Counterexample to C6 as stated: with `PermissionDenied` raised on
every attempt, the claim requires the error to surface immediately after
the first attempt with no retry and no DLQ record; the code instead
invokes the tool 4 times, sleeps 3 times, and produces a DLQ record. -/
theorem permission_denied_retried_counterexample :
    (runIngestion (fun s => s) "t0"
        (fun _ => .error (.permissionDenied "not allowed")) (fun _ => 0)
        ⟨3, 1, 2, 1/10⟩ "srv.tool" "acme" []).invocations = 4 ∧
      (runIngestion (fun s => s) "t0"
          (fun _ => .error (.permissionDenied "not allowed")) (fun _ => 0)
          ⟨3, 1, 2, 1/10⟩ "srv.tool" "acme" []).delays.length = 3 ∧
      (runIngestion (fun s => s) "t0"
          (fun _ => .error (.permissionDenied "not allowed")) (fun _ => 0)
          ⟨3, 1, 2, 1/10⟩ "srv.tool" "acme" []).dlq.length = 1 := by
  have hres := runIngestion_allFail_defaults (fun s => s) "t0"
    (fun _ => .error (.permissionDenied "not allowed")) (fun _ => 0)
    "srv.tool" "acme" [] (fun _ => .permissionDenied "not allowed")
    (fun _ => rfl)
  rw [hres]
  refine ⟨rfl, rfl, rfl⟩

theorem nodup_markerSet (l : List ℕ) : (markerSet l).Nodup :=
  ((perm_sortBy _ l.dedup).nodup_iff).mpr l.nodup_dedup

theorem length_extractCitations (response : String)
    (context : List ContextItem) :
    (extractCitations response context).length ≤ context.length := by
  rw [extractCitations, List.length_map]
  set fl := (markerSet (findMarkers response)).filter
    (fun m => 1 ≤ m ∧ m ≤ context.length) with hfl
  have hnd : fl.Nodup := (nodup_markerSet _).filter _
  have hsub : fl.toFinset ⊆ Finset.Icc 1 context.length := by
    intro x hx
    rw [List.mem_toFinset] at hx
    rw [hfl] at hx
    have := List.of_mem_filter hx
    simp only [decide_eq_true_eq] at this
    exact Finset.mem_Icc.mpr this
  have hcard : fl.toFinset.card = fl.length := List.toFinset_card_of_nodup hnd
  have := Finset.card_le_card hsub
  rw [hcard] at this
  simpa using this

/-- C9 (amended). Citation extraction emits exactly one citation per
unique marker `[i]` in the answer with `1 ≤ i ≤ len(context)`, referencing
`context[i-1]`, so `len(citations) ≤ len(context)`; the citations are
emitted in ascending marker order (the iteration order of the Python set
of markers), not in first-appearance order; on the 3-item context with
answer `"Answer [1] and [3]."` exactly items 1 and 3 are cited. -/
theorem citation_extraction_bounds (response : String)
    (context : List ContextItem) :
    (extractCitations response context).length ≤ context.length ∧
      (∀ c ∈ extractCitations response context, ∃ i,
        1 ≤ i ∧ i ≤ context.length ∧ i ∈ findMarkers response ∧
          c = mkCitation (context.getD (i - 1) default)) ∧
      ((markerSet (findMarkers response)).filter
        (fun m => 1 ≤ m ∧ m ≤ context.length)).Pairwise (· ≤ ·) ∧
      extractCitations "Answer [1] and [3]."
          [⟨none, "c1", "d1", "tool", "t1", "", "", "", ""⟩,
            ⟨none, "c2", "d2", "tool", "t2", "", "", "", ""⟩,
            ⟨none, "c3", "d3", "tool", "t3", "", "", "", ""⟩] =
        [⟨"chunk", "c1", "d1", "tool", "t1", "", "", ""⟩,
          ⟨"chunk", "c3", "d3", "tool", "t3", "", "", ""⟩] := by
  refine ⟨length_extractCitations response context, ?_, ?_, by decide⟩
  · intro c hc
    rw [extractCitations] at hc
    rcases List.mem_map.mp hc with ⟨m, hm, hmk⟩
    have hrange := List.of_mem_filter hm
    simp only [decide_eq_true_eq] at hrange
    have hmem : m ∈ markerSet (findMarkers response) := List.mem_of_mem_filter hm
    have hfm : m ∈ findMarkers response := by
      have := (perm_sortBy (fun a b => decide (a ≤ b))
        (findMarkers response).dedup).mem_iff.mp hmem
      exact (List.mem_dedup).mp this
    exact ⟨m, hrange.1, hrange.2, hfm, hmk.symm⟩
  · have h := pairwise_sortBy (fun a b : ℕ => decide (a ≤ b))
      (fun a b => by
        simp only [decide_eq_true_eq]
        exact le_total a b)
      (fun a b c hab hbc => by
        simp only [decide_eq_true_eq] at *
        exact le_trans hab hbc)
      (findMarkers response).dedup
    exact (h.imp (by simp)).filter _

/-- Counterexample to C9's emission order: in
`"Answer [3] and [1]."` the markers first appear in the order 3, 1, but
the extracted citations reference items 1 then 3 (ascending marker
order), not 3 then 1 as the claim requires. -/
theorem citation_order_counterexample :
    (extractCitations "Answer [3] and [1]."
        [⟨none, "c1", "d1", "tool", "t1", "", "", "", ""⟩,
          ⟨none, "c2", "d2", "tool", "t2", "", "", "", ""⟩,
          ⟨none, "c3", "d3", "tool", "t3", "", "", "", ""⟩]).map
        Citation.refId = ["c1", "c3"] ∧
      findMarkers "Answer [3] and [1]." = [3, 1] ∧
      (["c1", "c3"] : List String) ≠ ["c3", "c1"] := by
  refine ⟨by decide, by decide, by decide⟩

/-- C10. Invoking a registered tool with `tenant_id=None` performs no
permission check and proceeds straight to the transport, whatever the
allow-lists say; a permission error can only arise when a truthy
`tenant_id` is supplied, so omitting the tenant bypasses both the tenant
and the per-user allow-lists. -/
theorem invoke_tool_none_tenant_bypasses (tools : List (String × ToolInfo))
    (config : HostConfig)
    (serverInvoke : String → String → List (String × Json) →
      Except McpError Json)
    (toolId : String) (params : List (String × Json))
    (userId : Option String) (tool : ToolInfo)
    (hfound : lookupStr tools toolId = some tool) :
    invokeTool tools config serverInvoke toolId params none userId =
        (serverInvoke tool.serverId (toolNameOf toolId) params).mapError
          HostError.transport ∧
      (∀ tid uid, isPermissionError
          (invokeTool tools config serverInvoke toolId params tid uid) =
            true →
        ∃ t, tid = some t ∧ t ≠ "") := by
  constructor
  · simp only [invokeTool, hfound]
  · intro tid uid hperm
    rcases tid with _ | t
    · simp only [invokeTool, hfound] at hperm
      rcases h : serverInvoke tool.serverId (toolNameOf toolId) params
        with r | err
      · rw [h] at hperm
        simp [Except.mapError, isPermissionError] at hperm
      · rw [h] at hperm
        simp [Except.mapError, isPermissionError] at hperm
    · by_cases ht : t = ""
      · subst ht
        simp only [invokeTool, hfound, ne_eq, not_true_eq_false,
          if_false, ite_false] at hperm
        rcases h : serverInvoke tool.serverId (toolNameOf toolId) params
          with r | err
        · rw [h] at hperm
          simp [Except.mapError, isPermissionError] at hperm
        · rw [h] at hperm
          simp [Except.mapError, isPermissionError] at hperm
      · exact ⟨t, rfl, ht⟩

/-- Witness for C10 at a registered tool and an empty permission
configuration. -/
theorem invoke_tool_none_tenant_bypasses_witness :
    lookupStr [("srv.search", ToolInfo.mk "srv")] "srv.search" =
        some (ToolInfo.mk "srv") ∧
      invokeTool [("srv.search", ToolInfo.mk "srv")] ⟨[]⟩
          (fun _ _ _ => .ok (.str "ok")) "srv.search" [] none none =
        ((fun (_ _ : String) (_ : List (String × Json)) =>
            (Except.ok (Json.str "ok") : Except McpError Json)) "srv"
          (toolNameOf "srv.search") []).mapError HostError.transport :=
  ⟨rfl,
    (invoke_tool_none_tenant_bypasses [("srv.search", ToolInfo.mk "srv")]
      ⟨[]⟩ (fun _ _ _ => .ok (.str "ok")) "srv.search" [] none
      (ToolInfo.mk "srv") rfl).1⟩

end RagC

